import Mathlib

/-!
# Verification of the priority segment tree (`haiku_baselines/common/segment_tree.py`)

This file gives a shallow embedding of the segment-tree module and proves /
refutes the specification claims about it.

Modelling conventions, matching the source:

* `jax.numpy` arrays are immutable; `x.at[i].set(v)` is a purely functional
  update returning a new array.  Where the source *discards* the result of such
  an update (it does so in `__setitem__`, `_setitem_helper` and
  `_find_prefixsum_idx_helper`), the embedding computes the updated value into
  an unused `let` binding and likewise discards it.
* `jax.jit` is semantically the identity on the traced computation and is
  dropped.
* Array reads `a[i]` clamp the index into range (JAX gather semantics);
  functional updates with an out-of-range index leave the array unchanged
  (JAX scatter drop semantics).
* Python `assert` statements become `Except Err` results, named after the
  specification's error taxonomy (§7).
* Python `//` on integers is floor division, i.e. `Int.fdiv`.
* Array elements are modelled over `ℚ` (for the sum tree) or `WithTop ℚ`
  (for the min tree, whose neutral element is `float('inf')`), or an abstract
  type `α` for the generic engine.
* The general recursion of `_reduce_helper` and the `while` loop of
  `_find_prefixsum_idx_helper` are modelled with an explicit fuel parameter
  (`none` = the recursion has not finished within the given fuel); the
  ancestor-propagation loop of `_setitem_helper` is proved terminating and
  defined by well-founded recursion.
-/

namespace SegTreeModel

/-- Error taxonomy of the specification (§7), plus one extra constructor for
the element-type assertion `assert isinstance(prefixsum[0], float)` in
`find_prefixsum_idx`, which does not appear in the taxonomy. -/
inductive Err where
  | invalidCapacity
  | indexOutOfRange
  | prefixSumOutOfRange
  | elementTypeAssertion
  deriving DecidableEq, Repr

/-- Array read `l[i]`, JAX gather semantics: the index is clamped into
`[0, length - 1]`; `d` is only returned for the empty array. -/
def jget (l : List α) (d : α) (i : ℤ) : α :=
  l.getD (min (max i 0) ((l.length : ℤ) - 1)).toNat d

/-- Functional update `l.at[i].set(v)` at a single index, JAX scatter
semantics: an out-of-range index leaves the array unchanged. -/
def jset (l : List α) (i : ℕ) (v : α) : List α :=
  l.set i v

/-- Functional update `l.at[idxs].set(vals)` at an index array. -/
def jscatter (l : List α) (idxs : List ℕ) (vals : List α) : List α :=
  (idxs.zip vals).foldl (fun acc p => jset acc p.1 p.2) l

/-- The module-level `unique` helper: for each position, keep the element iff
it differs from its successor; the last element is always kept.  (This removes
duplicates only when they are adjacent, i.e. only on sorted input.  The
empty-list case, on which the source would raise a shape error, never arises
on the call paths modelled here.) -/
def unique : List ℕ → List ℕ
  | [] => []
  | [a] => [a]
  | a :: b :: l => if b ≠ a then a :: unique (b :: l) else unique (b :: l)

/-- The `SegmentTree` object: `_capacity`, `_value`, `_operation`,
`neutral_element`. -/
structure SegTree (α : Type) where
  capacity : ℕ
  value : List α
  op : α → α → α
  neutral : α

/-- `SegmentTree.__init__`: asserts `capacity > 0 and capacity & (capacity - 1) == 0`,
then fills all `2 * capacity` slots with the neutral element. -/
def SegTree.init (capacity : ℕ) (operation : α → α → α) (neutral_element : α) :
    Except Err (SegTree α) :=
  if 0 < capacity ∧ capacity &&& (capacity - 1) = 0 then
    .ok ⟨capacity, List.replicate (2 * capacity) neutral_element, operation, neutral_element⟩
  else
    .error .invalidCapacity

/-! ### The ancestor-propagation loop of `_setitem_helper`

The loop runs while `len(idxs) > 1 or idxs[0] > 0`; each iteration computes a
functional update of `_value` whose result is **discarded** (as in the source)
and replaces `idxs` by `unique(idxs // 2)`.  We first prove the termination
measure `idxs.sum + idxs.length` decreases. -/

theorem unique_sum_le : ∀ l : List ℕ, (unique l).sum ≤ l.sum
  | [] => le_rfl
  | [a] => le_rfl
  | a :: b :: l => by
    rw [unique]
    split
    · simpa using unique_sum_le (b :: l)
    · calc (unique (b :: l)).sum ≤ (b :: l).sum := unique_sum_le (b :: l)
        _ ≤ (a :: b :: l).sum := by simp

theorem unique_length_le : ∀ l : List ℕ, (unique l).length ≤ l.length
  | [] => le_rfl
  | [a] => le_rfl
  | a :: b :: l => by
    rw [unique]
    split
    · simpa using unique_length_le (b :: l)
    · calc (unique (b :: l)).length ≤ (b :: l).length := unique_length_le (b :: l)
        _ ≤ (a :: b :: l).length := by simp

theorem unique_all_zero : ∀ l : List ℕ, (∀ x ∈ l, x = 0) → l ≠ [] → unique l = [0]
  | [], _, hne => absurd rfl hne
  | [a], h, _ => by simp [unique, h a (by simp)]
  | a :: b :: l, h, _ => by
    have ha : a = 0 := h a (by simp)
    have hb : b = 0 := h b (by simp)
    rw [unique, if_neg (by simp [ha, hb])]
    exact unique_all_zero (b :: l) (fun x hx => h x (List.mem_cons_of_mem a hx)) (by simp)

theorem sum_map_div2_le : ∀ l : List ℕ, (l.map (· / 2)).sum ≤ l.sum
  | [] => le_rfl
  | a :: l => by
    simp only [List.map_cons, List.sum_cons]
    exact Nat.add_le_add (Nat.div_le_self a 2) (sum_map_div2_le l)

theorem sum_map_div2_lt : ∀ l : List ℕ, (∃ x ∈ l, 0 < x) → (l.map (· / 2)).sum < l.sum
  | [], h => by simp at h
  | a :: l, h => by
    simp only [List.map_cons, List.sum_cons]
    rcases h with ⟨x, hx, hxpos⟩
    rcases List.mem_cons.mp hx with rfl | hxl
    · have : x / 2 < x := Nat.div_lt_self hxpos (by norm_num)
      exact Nat.add_lt_add_of_lt_of_le this (sum_map_div2_le l)
    · exact Nat.add_lt_add_of_le_of_lt (Nat.div_le_self a 2)
        (sum_map_div2_lt l ⟨x, hxl, hxpos⟩)

/-- One pass of `idxs = unique(idxs // 2)` strictly decreases
`idxs.sum + idxs.length` as long as the loop condition holds. -/
theorem step_measure (l : List ℕ) (h : 1 < l.length ∨ 0 < l.headD 0) :
    (unique (l.map (· / 2))).sum + (unique (l.map (· / 2))).length < l.sum + l.length := by
  by_cases hpos : ∃ x ∈ l, 0 < x
  · have h1 : (unique (l.map (· / 2))).sum ≤ (l.map (· / 2)).sum := unique_sum_le _
    have h2 : (l.map (· / 2)).sum < l.sum := sum_map_div2_lt l hpos
    have h3 : (unique (l.map (· / 2))).length ≤ l.length := by
      calc (unique (l.map (· / 2))).length ≤ (l.map (· / 2)).length := unique_length_le _
        _ = l.length := by simp
    omega
  · push_neg at hpos
    have hzero : ∀ x ∈ l, x = 0 := fun x hx => Nat.le_zero.mp (hpos x hx)
    have hlen : 1 < l.length := by
      rcases h with h | h
      · exact h
      · rcases l with _ | ⟨a, l⟩
        · simp at h
        · exact absurd (hzero a (by simp)) (by simpa using Nat.pos_iff_ne_zero.mp h)
    have hne : l ≠ [] := by rintro rfl; simp at hlen
    have hmapzero : ∀ x ∈ l.map (· / 2), x = 0 := by
      intro x hx
      rcases List.mem_map.mp hx with ⟨y, hy, rfl⟩
      simp [hzero y hy]
    have hmapne : l.map (· / 2) ≠ [] := by
      simpa using hne
    rw [unique_all_zero _ hmapzero hmapne]
    have : l.sum = 0 := List.sum_eq_zero hzero
    simp [this]
    omega

/-- The `while` loop of `_setitem_helper`.  Each iteration recomputes the
parent values into a functional array update whose result is discarded (the
source never rebinds `_value`), then moves `idxs` one level up.  The loop
condition `len(idxs) > 1 or idxs[0] > 0` reads `idxs[0]` as `headD 0`: every
list reaching the loop is nonempty (`unique` of a nonempty list is
nonempty), so the default is never consulted. -/
def setitemLoop (operation : α → α → α) (neutral : α) (value : List α) (idxs : List ℕ) :
    List α :=
  if h : 1 < idxs.length ∨ 0 < idxs.headD 0 then
    let _updated := jscatter value idxs (idxs.map (fun k =>
      operation (jget value neutral (2 * k)) (jget value neutral (2 * k + 1))))
    setitemLoop operation neutral value (unique (idxs.map (· / 2)))
  else
    value
termination_by idxs.sum + idxs.length
decreasing_by exact step_measure _ h

/-- `_setitem_helper`: move to the parent level once, then run the loop. -/
def setitem_helper (t : SegTree α) (value : List α) (idxs : List ℕ) : List α :=
  setitemLoop t.op t.neutral value (unique (idxs.map (· / 2)))

/-- `__setitem__` with a scalar index: the leaf write
`self._value.at[idxs].set(val)` is computed but its result is discarded (as in
the source), and `_value` is rebound to the result of `_setitem_helper`. -/
def setitem (t : SegTree α) (idx : ℕ) (val : α) : SegTree α :=
  let idxs := idx + t.capacity
  let _written := jset t.value idxs val
  { t with value := setitem_helper t t.value [idxs] }

/-- `__setitem__` with an index array (`setBatch`). -/
def setBatch (t : SegTree α) (idx : List ℕ) (val : List α) : SegTree α :=
  let idxs := idx.map (· + t.capacity)
  let _written := jscatter t.value idxs val
  { t with value := setitem_helper t t.value idxs }

/-- `__getitem__`: asserts `max(idx) < capacity` and `0 <= min(idx)` (either
failure is the specification's `IndexOutOfRange`), then reads the raw leaf. -/
def getE (t : SegTree α) (idx : ℤ) : Except Err α :=
  if ¬ idx < (t.capacity : ℤ) then .error .indexOutOfRange
  else if ¬ 0 ≤ idx then .error .indexOutOfRange
  else .ok (jget t.value t.neutral ((t.capacity : ℤ) + idx))

/-- `__setitem__` wrapped as a fallible call, for stating the error-handling
claims: the source performs no bounds assertion in `__setitem__`, so it never
raises and this is always `.ok`. -/
def setE (t : SegTree α) (idx : ℕ) (val : α) : Except Err (SegTree α) :=
  .ok (setitem t idx val)

/-- `_reduce_helper`, with fuel for the general recursion (`none` means the
fuel ran out; the recursion of the source has no intrinsic bound for
ill-formed node ranges).  `stop` is the Python parameter `end` (a Lean
keyword), already converted by `reduce` to an inclusive bound. -/
def reduce_helper (t : SegTree α) :
    ℕ → ℤ → ℤ → ℕ → ℤ → ℤ → Option α
  | 0, _, _, _, _, _ => none
  | fuel + 1, start, stop, node, node_start, node_end =>
    if start = node_start ∧ stop = node_end then
      some (jget t.value t.neutral (node : ℤ))
    else
      let mid := (node_start + node_end).fdiv 2
      if stop ≤ mid then
        reduce_helper t fuel start stop (2 * node) node_start mid
      else if mid + 1 ≤ start then
        reduce_helper t fuel start stop (2 * node + 1) (mid + 1) node_end
      else
        match reduce_helper t fuel start mid (2 * node) node_start mid,
              reduce_helper t fuel (mid + 1) stop (2 * node + 1) (mid + 1) node_end with
        | some a, some b => some (t.op a b)
        | _, _ => none

/-- `reduce(start, end)`: `end = None` defaults to `capacity`; a negative
`end` has `capacity` added; then `end -= 1` and the helper runs from the root
(node 1, covering `[0, capacity - 1]`).  The fuel `capacity + 1` strictly
dominates the recursion depth for every in-range query (proved below); the
source recursion carries no fuel. -/
def reduce (t : SegTree α) (start : ℤ) (stop? : Option ℤ) : Option α :=
  let stop0 : ℤ := match stop? with
    | none => (t.capacity : ℤ)
    | some e => e
  let stop1 := if stop0 < 0 then stop0 + t.capacity else stop0
  reduce_helper t (t.capacity + 1) start (stop1 - 1) 1 0 ((t.capacity : ℤ) - 1)

/-- `SumSegmentTree.__init__`: operation `jnp.add`, neutral element `0.0`. -/
def SumSegmentTree.init (capacity : ℕ) : Except Err (SegTree ℚ) :=
  SegTree.init capacity (fun a b => a + b) 0

/-- `SumSegmentTree.sum`: delegates to `reduce`. -/
def SumSegmentTree.sum (t : SegTree ℚ) (start : ℤ) (stop? : Option ℤ) : Option ℚ :=
  reduce t start stop?

/-- `MinSegmentTree.__init__`: operation `jnp.minimum`, neutral element
`float('inf')`, modelled as `⊤ : WithTop ℚ`. -/
def MinSegmentTree.init (capacity : ℕ) : Except Err (SegTree (WithTop ℚ)) :=
  SegTree.init capacity (fun a b => min a b) ⊤

/-- `MinSegmentTree.min`: delegates to `reduce`. -/
def MinSegmentTree.minRange (t : SegTree (WithTop ℚ)) (start : ℤ) (stop? : Option ℤ) :
    Option (WithTop ℚ) :=
  reduce t start stop?

/-! ### `_find_prefixsum_idx_helper` -/

/-- The loop state of `_find_prefixsum_idx_helper`: the vectors `idx`,
`prefixsum` and `cont`. -/
structure FindState where
  idx : List ℕ
  prefixsum : List ℚ
  cont : List Bool
  deriving DecidableEq, Repr

/-- One iteration of the `while jnp.any(cont)` loop.  The first line
`idx.at[cont].set(2 * idx[cont])` computes the doubled indices into a
functional update whose result is **discarded** (the source does not rebind
`idx` there), so the subsequent lines all see the un-doubled `idx`. -/
def find_step (t : SegTree ℚ) (s : FindState) : FindState :=
  let _doubled := (s.idx.zip s.cont).map (fun p => if p.2 then 2 * p.1 else p.1)
  let vals := s.idx.map (fun i : ℕ => jget t.value t.neutral (i : ℤ))
  let prefixsumNew := (vals.zip s.prefixsum).map
    (fun p => if p.1 ≤ p.2 then p.2 - p.1 else p.2)
  let idx1 := ((vals.zip s.prefixsum).zip (s.idx.zip s.cont)).map
    (fun p => if p.1.1 > p.1.2 ∨ ¬ p.2.2 then p.2.1 else p.2.1 + 1)
  { idx := idx1
    prefixsum := prefixsumNew
    cont := idx1.map (fun i => decide (i < t.capacity)) }

/-- The full loop with fuel: run `find_step` while any `cont` flag is set,
then return `idx - capacity`.  `none` means the loop is still running after
`fuel` iterations. -/
def find_loop (t : SegTree ℚ) : ℕ → FindState → Option (List ℤ)
  | 0, _ => none
  | fuel + 1, s =>
    if s.cont.any id then find_loop t fuel (find_step t s)
    else some (s.idx.map (fun i : ℕ => (i : ℤ) - (t.capacity : ℤ)))

/-- The initial loop state for a batch of one target. -/
def find_start (p : ℚ) : FindState :=
  { idx := [1], prefixsum := [p], cont := [true] }

/-- In the source, the argument of `find_prefixsum_idx` has been converted to
a jax array, so `prefixsum[0]` is a jax scalar array — never an instance of
the Python type `float`.  The assertion `assert isinstance(prefixsum[0],
float)` therefore tests this constantly false value. -/
def prefixsum_element_is_float : Bool := false

/-- The assertion prelude of `find_prefixsum_idx` for a single target `p`
(`jnp.min` and `jnp.max` of the one-element batch are both `p`):
`assert 0 <= jnp.min(prefixsum)`, `assert jnp.max(prefixsum) <= self.sum() + 1e-5`
(both are the specification's `PrefixSumOutOfRange`), then
`assert isinstance(prefixsum[0], float)`. -/
def find_prefixsum_checks (t : SegTree ℚ) (p : ℚ) : Except Err Unit :=
  if ¬ 0 ≤ p then .error .prefixSumOutOfRange
  else if ¬ p ≤ (SumSegmentTree.sum t 0 none).getD t.neutral + 1 / 100000 then
    .error .prefixSumOutOfRange
  else if ¬ prefixsum_element_is_float then .error .elementTypeAssertion
  else .ok ()

/-! ### Specification-side notions -/

/-- The raw leaf value of logical slot `i`: `storage[capacity + i]`. -/
def SegTree.leaf (t : SegTree α) (i : ℤ) : α :=
  jget t.value t.neutral ((t.capacity : ℤ) + i)

/-- The tree-consistency invariant (§3): every internal node `k` with
`1 ≤ k < capacity` holds the operation applied to its two children. -/
def consistent (t : SegTree α) : Prop :=
  ∀ k, k < t.capacity → 1 ≤ k →
    jget t.value t.neutral (k : ℤ) =
      t.op (jget t.value t.neutral ((2 * k : ℕ) : ℤ))
           (jget t.value t.neutral ((2 * k + 1 : ℕ) : ℤ))

instance (t : SegTree α) [DecidableEq α] : Decidable (consistent t) := by
  unfold consistent; exact Nat.decidableBallLT _ _

/-- Left-to-right fold of the operation over a nonempty list (no seed from a
neutral element; `none` on the empty list). -/
def foldOp (op : α → α → α) : List α → Option α
  | [] => none
  | a :: l => some (l.foldl op a)

/-- The list of leaf values of the inclusive leaf range `[lo, hi]`. -/
def leafSeg (t : SegTree α) (lo hi : ℤ) : List α :=
  (List.range (hi + 1 - lo).toNat).map (fun i : ℕ => t.leaf (lo + (i : ℤ)))

/-- The capacity-8 `SumSegmentTree` right after construction (all slots `0`),
i.e. the tree of the specification's concrete scenario before any update. -/
def demo8 : SegTree ℚ :=
  ⟨8, List.replicate 16 0, fun a b => a + b, 0⟩

/-- The capacity-8 sum-tree state with leaves `[1, 2, 3, 5, 0, 0, 0, 0]` and
all internal nodes consistent: the state the specification's scenario steps
3–6 assume. -/
def demoP : SegTree ℚ :=
  ⟨8, [0, 11, 11, 0, 3, 8, 0, 0, 1, 2, 3, 5, 0, 0, 0, 0], fun a b => a + b, 0⟩

/-- A capacity-2 min tree (operation `min`, neutral `⊤`) with leaves `[1, 2]`
and the root equal to their minimum: a small consistent `MinSegmentTree`
state. -/
def demoM : SegTree (WithTop ℚ) :=
  ⟨2, [⊤, (1 : ℚ), (1 : ℚ), (2 : ℚ)], fun a b => min a b, ⊤⟩

/-- The freshly constructed capacity-4 sum tree (the payload of
`SegTree.init 4 (+) 0`). -/
def tree4 : SegTree ℚ :=
  ⟨4, List.replicate 8 0, fun a b => a + b, 0⟩

/-- One mutation call of the public interface: `set` with a scalar index or
`setBatch` with an index array. -/
inductive TreeOp (α : Type) where
  | single (idx : ℕ) (val : α)
  | batch (idx : List ℕ) (val : List α)

/-- Run one mutation call on the tree. -/
def applyOp (t : SegTree α) : TreeOp α → SegTree α
  | .single i v => setitem t i v
  | .batch is vs => setBatch t is vs

/-- Run a finite sequence of `set`/`setBatch` calls, left to right. -/
def applyOps (t : SegTree α) (ops : List (TreeOp α)) : SegTree α :=
  ops.foldl applyOp t

/-- All indices of the call are in `[0, capacity)`. -/
def TreeOp.inRange (c : ℕ) : TreeOp α → Prop
  | .single i _ => i < c
  | .batch is _ => ∀ i ∈ is, i < c

/-! ## Basic facts about the setters

Because the source discards the result of every functional array update it
computes in `__setitem__` / `_setitem_helper`, the setters never change the
tree.  These lemmas make that single fact available to several claims. -/

theorem setitemLoop_noop (operation : α → α → α) (neutral : α) (value : List α) :
    ∀ (n : ℕ) (idxs : List ℕ), idxs.sum + idxs.length ≤ n →
      setitemLoop operation neutral value idxs = value := by
  intro n
  induction n with
  | zero =>
    intro idxs h
    have hnil : idxs = [] := by
      cases idxs with
      | nil => rfl
      | cons a l => simp at h
    subst hnil
    rw [setitemLoop]
    simp
  | succ n ih =>
    intro idxs h
    rw [setitemLoop]
    split
    · next hcond => exact ih _ (by have := step_measure idxs hcond; omega)
    · rfl

theorem setitemLoop_eq (operation : α → α → α) (neutral : α) (value : List α)
    (idxs : List ℕ) : setitemLoop operation neutral value idxs = value :=
  setitemLoop_noop operation neutral value _ idxs le_rfl

/-- `set` returns the tree unchanged: the leaf write and every parent
recomputation are discarded functional updates. -/
theorem setitem_eq_self (t : SegTree α) (idx : ℕ) (val : α) : setitem t idx val = t := by
  show ({ t with value := setitem_helper t t.value [idx + t.capacity] } : SegTree α) = t
  unfold setitem_helper
  rw [setitemLoop_eq]

/-- `setBatch` returns the tree unchanged, for the same reason. -/
theorem setBatch_eq_self (t : SegTree α) (idx : List ℕ) (val : List α) :
    setBatch t idx val = t := by
  show ({ t with value := setitem_helper t t.value (idx.map (· + t.capacity)) } : SegTree α) = t
  unfold setitem_helper
  rw [setitemLoop_eq]

theorem foldl_setitem_eq_self (l : List (ℕ × α)) :
    ∀ t : SegTree α, l.foldl (fun acc p => setitem acc p.1 p.2) t = t := by
  induction l with
  | nil => intro t; rfl
  | cons p l ih => intro t; rw [List.foldl_cons, setitem_eq_self]; exact ih t

theorem applyOps_eq_self (ops : List (TreeOp α)) :
    ∀ t : SegTree α, applyOps t ops = t := by
  induction ops with
  | nil => intro t; rfl
  | cons o ops ih =>
    intro t
    rw [applyOps, List.foldl_cons]
    have ho : applyOp t o = t := by
      cases o with
      | single i v => exact setitem_eq_self t i v
      | batch is vs => exact setBatch_eq_self t is vs
    rw [ho]
    exact ih t

/-- Reading any index of a freshly initialized storage gives the neutral
element. -/
theorem jget_replicate (n : ℕ) (a d : α) (hn : 0 < n) (i : ℤ) :
    jget (List.replicate n a) d i = a := by
  unfold jget
  rw [List.getD_eq_getElem?_getD, List.length_replicate, List.getElem?_replicate,
    if_pos (by omega), Option.getD_some]

/-! ## Folds over leaf ranges

Infrastructure for the range-reduction correctness claim: splitting a leaf
range, and folding an associative operation over the pieces. -/

theorem foldl_op_pull (op : α → α → α)
    (hassoc : ∀ a b c, op (op a b) c = op a (op b c)) :
    ∀ (l : List α) (a b : α), l.foldl op (op a b) = op a (l.foldl op b)
  | [], _, _ => rfl
  | x :: l, a, b => by
    simp only [List.foldl_cons]
    rw [hassoc, foldl_op_pull op hassoc l a (op b x)]

theorem foldOp_append (op : α → α → α)
    (hassoc : ∀ a b c, op (op a b) c = op a (op b c)) (l1 l2 : List α) (a b : α)
    (h1 : foldOp op l1 = some a) (h2 : foldOp op l2 = some b) :
    foldOp op (l1 ++ l2) = some (op a b) := by
  rcases l1 with _ | ⟨x, l1⟩
  · exact absurd h1 (by simp [foldOp])
  rcases l2 with _ | ⟨y, l2⟩
  · exact absurd h2 (by simp [foldOp])
  rw [List.cons_append]
  simp only [foldOp, Option.some_inj] at h1 h2 ⊢
  rw [List.foldl_append, h1, List.foldl_cons, foldl_op_pull op hassoc, h2]

theorem foldOp_isSome (op : α → α → α) (l : List α) (h : l ≠ []) :
    ∃ a, foldOp op l = some a := by
  rcases l with _ | ⟨x, l⟩
  · exact absurd rfl h
  · exact ⟨_, rfl⟩

theorem leafSeg_ne_nil (t : SegTree α) (lo hi : ℤ) (h : lo ≤ hi) :
    leafSeg t lo hi ≠ [] := by
  unfold leafSeg
  intro hx
  rw [List.map_eq_nil_iff, List.range_eq_nil] at hx
  omega

theorem leafSeg_singleton (t : SegTree α) (x : ℤ) : leafSeg t x x = [t.leaf x] := by
  unfold leafSeg
  rw [show (x + 1 - x).toNat = 1 from by omega,
    show List.range 1 = [0] from rfl, List.map_cons, List.map_nil]
  norm_num

theorem leafSeg_cut (t : SegTree α) (s m e : ℤ) (h1 : s ≤ m) (h2 : m ≤ e) :
    leafSeg t s e = leafSeg t s m ++ leafSeg t (m + 1) e := by
  unfold leafSeg
  rw [show (e + 1 - s).toNat = (m + 1 - s).toNat + (e + 1 - (m + 1)).toNat from by omega,
    List.range_add, List.map_append, List.map_map]
  congr 1
  apply List.map_congr_left
  intro j hj
  simp only [Function.comp_apply]
  congr 1
  omega

theorem mem_leafSeg_iff (t : SegTree α) (lo hi : ℤ) (x : α) :
    x ∈ leafSeg t lo hi ↔ ∃ i, lo ≤ i ∧ i ≤ hi ∧ x = t.leaf i := by
  unfold leafSeg
  simp only [List.mem_map, List.mem_range]
  constructor
  · rintro ⟨j, hj, rfl⟩
    exact ⟨lo + j, by omega, by omega, rfl⟩
  · rintro ⟨i, h1, h2, rfl⟩
    refine ⟨(i - lo).toNat, by omega, ?_⟩
    congr 1
    omega

/-- A consistent tree's node `k`, sitting `h` levels above the leaves (so it
covers the `2 ^ h` leaves starting at logical slot `k * 2 ^ h - capacity`),
stores the fold of the operation over exactly those leaves. -/
theorem node_agg (t : SegTree α)
    (hassoc : ∀ a b c, t.op (t.op a b) c = t.op a (t.op b c))
    (hcons : consistent t) :
    ∀ (h : ℕ) (k : ℕ), (t.capacity : ℤ) ≤ (k : ℤ) * 2 ^ h →
      ((k : ℤ) + 1) * 2 ^ h ≤ 2 * (t.capacity : ℤ) →
      foldOp t.op (leafSeg t ((k : ℤ) * 2 ^ h - (t.capacity : ℤ))
        ((k : ℤ) * 2 ^ h - (t.capacity : ℤ) + 2 ^ h - 1)) =
        some (jget t.value t.neutral (k : ℤ)) := by
  intro h
  induction h with
  | zero =>
    intro k hk1 hk2
    simp only [pow_zero, mul_one] at hk1 hk2 ⊢
    rw [show (k : ℤ) - (t.capacity : ℤ) + 1 - 1 = (k : ℤ) - (t.capacity : ℤ) from by ring,
      leafSeg_singleton]
    unfold foldOp
    simp only [List.foldl_nil, Option.some_inj]
    unfold SegTree.leaf
    congr 1
    ring
  | succ h ih =>
    intro k hk1 hk2
    have hp : (0 : ℤ) < 2 ^ h := by positivity
    have hpow : (2 : ℤ) ^ (h + 1) = 2 ^ h + 2 ^ h := by ring
    have hkpos : 1 ≤ k := by
      rcases Nat.eq_zero_or_pos k with rfl | hpos
      · simp only [Nat.cast_zero, zero_mul] at hk1
        nlinarith
      · exact hpos
    have hklt : k < t.capacity := by
      have h2le : (2 : ℤ) ≤ 2 ^ (h + 1) := by
        calc (2 : ℤ) = 2 ^ 1 := by norm_num
          _ ≤ 2 ^ (h + 1) := by
            apply pow_le_pow_right₀ (by norm_num)
            omega
      nlinarith [hk2, h2le]
    have hL := ih (2 * k)
      (by push_cast; nlinarith [hk1]) (by push_cast; nlinarith [hk2, hp])
    have hR := ih (2 * k + 1)
      (by push_cast; nlinarith [hk1, hp]) (by push_cast; nlinarith [hk2])
    have eL1 : ((2 * k : ℕ) : ℤ) * 2 ^ h = (k : ℤ) * 2 ^ (h + 1) := by push_cast; ring
    have eR1 : ((2 * k + 1 : ℕ) : ℤ) * 2 ^ h = (k : ℤ) * 2 ^ (h + 1) + 2 ^ h := by
      push_cast; ring
    rw [eL1] at hL
    rw [eR1] at hR
    obtain ⟨a, ha⟩ := foldOp_isSome t.op
      (leafSeg t ((k : ℤ) * 2 ^ (h + 1) - (t.capacity : ℤ))
        ((k : ℤ) * 2 ^ (h + 1) - (t.capacity : ℤ) + 2 ^ h - 1))
      (leafSeg_ne_nil _ _ _ (by omega))
    obtain ⟨b, hb⟩ := foldOp_isSome t.op
      (leafSeg t ((k : ℤ) * 2 ^ (h + 1) + 2 ^ h - (t.capacity : ℤ))
        ((k : ℤ) * 2 ^ (h + 1) + 2 ^ h - (t.capacity : ℤ) + 2 ^ h - 1))
      (leafSeg_ne_nil _ _ _ (by omega))
    have hcut : leafSeg t ((k : ℤ) * 2 ^ (h + 1) - (t.capacity : ℤ))
        ((k : ℤ) * 2 ^ (h + 1) - (t.capacity : ℤ) + 2 ^ (h + 1) - 1) =
        leafSeg t ((k : ℤ) * 2 ^ (h + 1) - (t.capacity : ℤ))
          ((k : ℤ) * 2 ^ (h + 1) - (t.capacity : ℤ) + 2 ^ h - 1) ++
        leafSeg t ((k : ℤ) * 2 ^ (h + 1) + 2 ^ h - (t.capacity : ℤ))
          ((k : ℤ) * 2 ^ (h + 1) + 2 ^ h - (t.capacity : ℤ) + 2 ^ h - 1) := by
      rw [show (k : ℤ) * 2 ^ (h + 1) + 2 ^ h - (t.capacity : ℤ) =
          ((k : ℤ) * 2 ^ (h + 1) - (t.capacity : ℤ) + 2 ^ h - 1) + 1 from by ring]
      rw [show (k : ℤ) * 2 ^ (h + 1) - (t.capacity : ℤ) + 2 ^ (h + 1) - 1 =
          ((k : ℤ) * 2 ^ (h + 1) - (t.capacity : ℤ) + 2 ^ h - 1) + 1 + 2 ^ h - 1 from by
        rw [hpow]; ring]
      exact leafSeg_cut t _ _ _ (by omega) (by omega)
    rw [hcut, foldOp_append t.op hassoc _ _ a b ha hb]
    have hnode := hcons k hklt hkpos
    rw [hnode, Option.some_inj]
    have ha' : a = jget t.value t.neutral ((2 * k : ℕ) : ℤ) := by
      rw [← Option.some_inj, ← ha, ← hL]
    have hb' : b = jget t.value t.neutral ((2 * k + 1 : ℕ) : ℤ) := by
      rw [← Option.some_inj, ← hb, ← hR]
    rw [ha', hb']

/-- Correctness of `_reduce_helper` on a consistent tree: called on node `k`
sitting `h` levels above the leaves with its exact node range and an in-range
query `[s, e]` (inclusive), it returns the fold of the operation over the
leaves `s .. e`, given fuel exceeding the height. -/
theorem reduce_helper_eq (t : SegTree α)
    (hassoc : ∀ a b c, t.op (t.op a b) c = t.op a (t.op b c))
    (hcons : consistent t) :
    ∀ (h : ℕ) (fuel : ℕ) (k : ℕ) (s e : ℤ),
      h < fuel →
      (t.capacity : ℤ) ≤ (k : ℤ) * 2 ^ h →
      ((k : ℤ) + 1) * 2 ^ h ≤ 2 * (t.capacity : ℤ) →
      (k : ℤ) * 2 ^ h - (t.capacity : ℤ) ≤ s → s ≤ e →
      e ≤ (k : ℤ) * 2 ^ h - (t.capacity : ℤ) + 2 ^ h - 1 →
      reduce_helper t fuel s e k ((k : ℤ) * 2 ^ h - (t.capacity : ℤ))
        ((k : ℤ) * 2 ^ h - (t.capacity : ℤ) + 2 ^ h - 1) =
        foldOp t.op (leafSeg t s e) := by
  intro h
  induction h with
  | zero =>
    intro fuel k s e hfuel hk1 hk2 hs hse he
    obtain ⟨f, rfl⟩ : ∃ f, fuel = f + 1 := ⟨fuel - 1, by omega⟩
    simp only [pow_zero] at hk1 hk2 hs hse he ⊢
    have hs' : s = (k : ℤ) * 1 - (t.capacity : ℤ) := by omega
    have he' : e = (k : ℤ) * 1 - (t.capacity : ℤ) := by omega
    subst hs'
    subst he'
    rw [reduce_helper, if_pos ⟨rfl, by ring⟩, leafSeg_singleton]
    unfold foldOp
    simp only [List.foldl_nil, Option.some_inj]
    unfold SegTree.leaf
    congr 1
    ring
  | succ h ih =>
    intro fuel k s e hfuel hk1 hk2 hs hse he
    obtain ⟨f, rfl⟩ : ∃ f, fuel = f + 1 := ⟨fuel - 1, by omega⟩
    have hf : h < f := by omega
    have hp : (0 : ℤ) < 2 ^ h := by positivity
    have hpow : (2 : ℤ) ^ (h + 1) = 2 ^ h + 2 ^ h := by ring
    have hmid : ((k : ℤ) * 2 ^ (h + 1) - (t.capacity : ℤ) +
        ((k : ℤ) * 2 ^ (h + 1) - (t.capacity : ℤ) + 2 ^ (h + 1) - 1)).fdiv 2 =
        (k : ℤ) * 2 ^ (h + 1) - (t.capacity : ℤ) + 2 ^ h - 1 := by
      rw [Int.fdiv_eq_ediv _ (by norm_num)]
      omega
    have eL : ((2 * k : ℕ) : ℤ) * 2 ^ h = (k : ℤ) * 2 ^ (h + 1) := by push_cast; ring
    have eR : ((2 * k + 1 : ℕ) : ℤ) * 2 ^ h = (k : ℤ) * 2 ^ (h + 1) + 2 ^ h := by
      push_cast; ring
    rw [reduce_helper]
    by_cases hexact : s = (k : ℤ) * 2 ^ (h + 1) - (t.capacity : ℤ) ∧
        e = (k : ℤ) * 2 ^ (h + 1) - (t.capacity : ℤ) + 2 ^ (h + 1) - 1
    · rw [if_pos hexact]
      rcases hexact with ⟨rfl, rfl⟩
      exact (node_agg t hassoc hcons (h + 1) k hk1 hk2).symm
    · rw [if_neg hexact]
      simp only [hmid]
      by_cases hleft : e ≤ (k : ℤ) * 2 ^ (h + 1) - (t.capacity : ℤ) + 2 ^ h - 1
      · rw [if_pos hleft]
        have hthis := ih f (2 * k) s e hf
          (by omega) (by push_cast; nlinarith [hk2, hp]) (by omega) hse (by omega)
        rw [eL] at hthis
        exact hthis
      · rw [if_neg hleft]
        by_cases hright : (k : ℤ) * 2 ^ (h + 1) - (t.capacity : ℤ) + 2 ^ h - 1 + 1 ≤ s
        · rw [if_pos hright]
          have hthis := ih f (2 * k + 1) s e hf
            (by omega) (by push_cast; nlinarith [hk2, hp]) (by omega) hse (by omega)
          rw [eR] at hthis
          rw [show (k : ℤ) * 2 ^ (h + 1) + 2 ^ h - (t.capacity : ℤ) =
              (k : ℤ) * 2 ^ (h + 1) - (t.capacity : ℤ) + 2 ^ h - 1 + 1 from by ring,
            show (k : ℤ) * 2 ^ (h + 1) - (t.capacity : ℤ) + 2 ^ h - 1 + 1 + 2 ^ h - 1 =
              (k : ℤ) * 2 ^ (h + 1) - (t.capacity : ℤ) + 2 ^ (h + 1) - 1 from by
              rw [hpow]; ring] at hthis
          exact hthis
        · rw [if_neg hright]
          have ihL := ih f (2 * k) s
            ((k : ℤ) * 2 ^ (h + 1) - (t.capacity : ℤ) + 2 ^ h - 1) hf
            (by omega) (by push_cast; nlinarith [hk2, hp]) (by omega) (by omega) (by omega)
          rw [eL] at ihL
          have ihR := ih f (2 * k + 1)
            ((k : ℤ) * 2 ^ (h + 1) - (t.capacity : ℤ) + 2 ^ h - 1 + 1) e hf
            (by omega) (by push_cast; nlinarith [hk2, hp]) (by omega) (by omega) (by omega)
          rw [eR] at ihR
          rw [show (k : ℤ) * 2 ^ (h + 1) + 2 ^ h - (t.capacity : ℤ) =
              (k : ℤ) * 2 ^ (h + 1) - (t.capacity : ℤ) + 2 ^ h - 1 + 1 from by ring,
            show (k : ℤ) * 2 ^ (h + 1) - (t.capacity : ℤ) + 2 ^ h - 1 + 1 + 2 ^ h - 1 =
              (k : ℤ) * 2 ^ (h + 1) - (t.capacity : ℤ) + 2 ^ (h + 1) - 1 from by
              rw [hpow]; ring] at ihR
          obtain ⟨a, ha⟩ := foldOp_isSome t.op
            (leafSeg t s ((k : ℤ) * 2 ^ (h + 1) - (t.capacity : ℤ) + 2 ^ h - 1))
            (leafSeg_ne_nil _ _ _ (by omega))
          obtain ⟨b, hb⟩ := foldOp_isSome t.op
            (leafSeg t ((k : ℤ) * 2 ^ (h + 1) - (t.capacity : ℤ) + 2 ^ h - 1 + 1) e)
            (leafSeg_ne_nil _ _ _ (by omega))
          rw [ihL, ihR, ha, hb]
          rw [leafSeg_cut t s ((k : ℤ) * 2 ^ (h + 1) - (t.capacity : ℤ) + 2 ^ h - 1) e
            (by omega) (by omega),
            foldOp_append t.op hassoc _ _ a b ha hb]

/-- Correctness of the `reduce` wrapper on a consistent power-of-two tree:
`reduce(start, stop)` is the fold of the operation over the leaves of the
half-open range `[start, stop)` (inclusive bound `stop - 1`). -/
theorem reduce_eq_foldOp (t : SegTree α) (d : ℕ) (hcap : t.capacity = 2 ^ d)
    (hassoc : ∀ a b c, t.op (t.op a b) c = t.op a (t.op b c)) (hcons : consistent t)
    (start stop : ℤ) (h0 : 0 ≤ start) (hlt : start < stop)
    (hle : stop ≤ (t.capacity : ℤ)) :
    reduce t start (some stop) = foldOp t.op (leafSeg t start (stop - 1)) := by
  show reduce_helper t (t.capacity + 1) start
      ((if stop < 0 then stop + t.capacity else stop) - 1) 1 0 ((t.capacity : ℤ) - 1) =
    foldOp t.op (leafSeg t start (stop - 1))
  rw [if_neg (by omega)]
  have hc : (t.capacity : ℤ) = 2 ^ d := by rw [hcap]; push_cast; ring
  have key := reduce_helper_eq t hassoc hcons d (t.capacity + 1) 1 start (stop - 1)
    (by rw [hcap]; have := Nat.lt_two_pow d; omega)
    (by rw [hc]; push_cast; omega)
    (by rw [hc]; push_cast; omega)
    (by rw [hc]; push_cast; omega)
    (by omega)
    (by rw [hc]; push_cast; omega)
  rw [show ((1 : ℕ) : ℤ) * 2 ^ d - (t.capacity : ℤ) + 2 ^ d - 1 = (t.capacity : ℤ) - 1 from by
      rw [hc]; push_cast; ring,
    show ((1 : ℕ) : ℤ) * 2 ^ d - (t.capacity : ℤ) = 0 from by
      rw [hc]; push_cast; ring] at key
  exact key

/-- Folding `+` from a seed equals the seed plus the list sum. -/
theorem foldl_add_eq (l : List ℚ) : ∀ a : ℚ, l.foldl (fun x y => x + y) a = a + l.sum := by
  induction l with
  | nil => intro a; simp
  | cons b l ih =>
    intro a
    rw [List.foldl_cons, ih, List.sum_cons]
    ring

/-- `foldOp` with `+` over a nonempty list is the list sum. -/
theorem foldOp_add (l : List ℚ) (h : l ≠ []) :
    foldOp (fun a b => a + b) l = some l.sum := by
  rcases l with _ | ⟨x, l⟩
  · exact absurd rfl h
  · show some (List.foldl (fun a b => a + b) x l) = some (x :: l).sum
    rw [foldl_add_eq, List.sum_cons]

/-- A left fold of `min` is a lower bound of the seed and of all elements. -/
theorem foldl_min_le {γ : Type} [LinearOrder γ] :
    ∀ (l : List γ) (a : γ), l.foldl (fun x y => min x y) a ≤ a ∧
      ∀ x ∈ l, l.foldl (fun x y => min x y) a ≤ x := by
  intro l
  induction l with
  | nil => intro a; exact ⟨le_rfl, by simp⟩
  | cons b l ih =>
    intro a
    rw [List.foldl_cons]
    refine ⟨le_trans (ih (min a b)).1 (min_le_left a b), ?_⟩
    intro x hx
    rcases List.mem_cons.mp hx with rfl | hxl
    · exact le_trans (ih (min a x)).1 (min_le_right a x)
    · exact (ih (min a b)).2 x hxl

/-- A left fold of `min` is attained: it is the seed or one of the elements. -/
theorem foldl_min_mem {γ : Type} [LinearOrder γ] :
    ∀ (l : List γ) (a : γ), l.foldl (fun x y => min x y) a = a ∨
      l.foldl (fun x y => min x y) a ∈ l := by
  intro l
  induction l with
  | nil => intro a; exact Or.inl rfl
  | cons b l ih =>
    intro a
    rw [List.foldl_cons]
    rcases ih (min a b) with h | h
    · rcases le_total a b with hab | hab
      · exact Or.inl (h.trans (min_eq_left hab))
      · exact Or.inr (by rw [h.trans (min_eq_right hab)]; exact List.mem_cons_self b l)
    · exact Or.inr (List.mem_cons_of_mem b h)

/-- For every tree, `self.sum()` — `reduce(0, None)` — hits the exact-match
branch of `_reduce_helper` immediately and returns the root `storage[1]`;
in particular it is always `some`, which justifies reading it with `getD`
inside `find_prefixsum_checks`. -/
theorem sum_none_eq_root (t : SegTree ℚ) :
    SumSegmentTree.sum t 0 none = some (jget t.value t.neutral ((1 : ℕ) : ℤ)) := by
  show reduce_helper t (t.capacity + 1) 0
      ((if (t.capacity : ℤ) < 0 then (t.capacity : ℤ) + t.capacity else (t.capacity : ℤ)) - 1)
      1 0 ((t.capacity : ℤ) - 1) = some (jget t.value t.neutral ((1 : ℕ) : ℤ))
  rw [if_neg (by omega), reduce_helper, if_pos ⟨rfl, rfl⟩]

/-! ## The power-of-two bit trick of the constructor

`__init__` checks `capacity & (capacity - 1) == 0`; we relate it to
«capacity is a power of two». -/

theorem pow2_land_pred (k : ℕ) : 2 ^ k &&& (2 ^ k - 1) = 0 := by
  apply Nat.eq_of_testBit_eq
  intro i
  rw [Nat.testBit_and, Nat.zero_testBit, Nat.testBit_two_pow, Nat.testBit_two_pow_sub_one]
  by_cases h : k = i <;> simp [h]

theorem eq_pow2_of_land_pred : ∀ c : ℕ, 0 < c → c &&& (c - 1) = 0 → ∃ k, c = 2 ^ k := by
  intro c
  induction c using Nat.strong_induction_on with
  | _ c ih =>
    intro hc h
    rcases Nat.even_or_odd c with he | ho
    · obtain ⟨m, hm⟩ := he
      have hm2 : c = 2 * m := by omega
      have hmpos : 0 < m := by omega
      have hrec : m &&& (m - 1) = 0 := by
        apply Nat.eq_of_testBit_eq
        intro i
        rw [Nat.zero_testBit, Nat.testBit_and]
        have e1 : m.testBit i = c.testBit (i + 1) := by
          rw [Nat.testBit_add_one]
          congr 1
          omega
        have e2 : (m - 1).testBit i = (c - 1).testBit (i + 1) := by
          rw [Nat.testBit_add_one]
          congr 1
          omega
        rw [e1, e2, ← Nat.testBit_and, h, Nat.zero_testBit]
      obtain ⟨k, hk⟩ := ih m (by omega) hmpos hrec
      exact ⟨k + 1, by rw [hm2, hk]; ring⟩
    · rcases Nat.lt_or_ge c 2 with h1 | h1
      · exact ⟨0, by omega⟩
      · exfalso
        obtain ⟨a, ha⟩ := ho
        have hapos : 0 < a := by omega
        have hbit : ∃ i, a.testBit i = true := by
          by_contra hno
          push_neg at hno
          have : a = 0 := Nat.eq_of_testBit_eq (fun i => by
            simp [Nat.zero_testBit]
            exact Bool.not_eq_true _ ▸ (hno i))
          omega
        obtain ⟨i, hi⟩ := hbit
        have hset : (c &&& (c - 1)).testBit (i + 1) = true := by
          rw [Nat.testBit_and, Nat.testBit_add_one, Nat.testBit_add_one]
          have e1 : c / 2 = a := by omega
          have e2 : (c - 1) / 2 = a := by omega
          rw [e1, e2, hi]
          rfl
        rw [h, Nat.zero_testBit] at hset
        exact Bool.false_ne_true hset

/-! ## Claim theorems -/

/-- Claim C1, evaluated at the failing input: in the capacity-8
`SumSegmentTree` scenario with all leaves `0`, after `set(3, 5.0)` the storage
is unchanged, `get(3)` returns `0` (the claim requires `5`), and `sum(0, 8)`
returns `0` (the claim requires `5.0`) — the leaf write
`self._value.at[idxs].set(val)` is a functional update whose result the source
discards. -/
theorem C1_set_write_discarded :
    (setitem demo8 3 5).value = demo8.value ∧
    getE (setitem demo8 3 5) 3 = .ok 0 ∧
    SumSegmentTree.sum (setitem demo8 3 5) 0 (some 8) = some 0 := by
  rw [setitem_eq_self]
  exact ⟨rfl, rfl, rfl⟩

/-- Claim C2: for a tree constructed by `SegmentTree.__init__` with an
operation and its neutral element, after any finite sequence of in-range
`set`/`setBatch` calls every internal node `k` with `1 ≤ k < capacity` holds
`operation(storage[2k], storage[2k+1])`.  (It holds because the storage stays
in its all-neutral initial state: the setters discard every update they
compute — see C1.) -/
theorem C2_invariant_after_updates (operation : α → α → α) (neutral : α)
    (hneutral : operation neutral neutral = neutral) (c : ℕ) (t : SegTree α)
    (hinit : SegTree.init c operation neutral = .ok t)
    (ops : List (TreeOp α)) (hin : ∀ o ∈ ops, o.inRange c) :
    consistent (applyOps t ops) := by
  rw [applyOps_eq_self]
  unfold SegTree.init at hinit
  split_ifs at hinit with hcap
  cases hinit
  intro k hk hk1
  dsimp only at hk ⊢
  rw [jget_replicate _ _ _ (by omega), jget_replicate _ _ _ (by omega),
    jget_replicate _ _ _ (by omega)]
  exact hneutral.symm

/-- Witness for C2: the capacity-4 sum tree with the call sequence
`set(1, 5); setBatch([0, 2], [1, 2])`. -/
theorem C2_witness :
    ((fun a b => a + b) (0 : ℚ) 0 = 0) ∧
    SegTree.init 4 (fun a b => a + b) (0 : ℚ) = .ok tree4 ∧
    consistent (applyOps tree4 [TreeOp.single 1 5, TreeOp.batch [0, 2] [1, 2]]) :=
  ⟨by norm_num, rfl,
    C2_invariant_after_updates _ _ (by norm_num) 4 tree4 rfl _ (by
      intro o ho
      simp only [List.mem_cons, List.not_mem_nil, or_false] at ho
      rcases ho with rfl | rfl
      · exact (by norm_num : (1 : ℕ) < 4)
      · intro i hi
        simp only [List.mem_cons, List.not_mem_nil, or_false] at hi
        rcases hi with rfl | rfl <;> norm_num)⟩

/-- Claim C4, evaluated at the failing input: with leaves
`[1, 2, 3, 5, 0, 0, 0, 0]` and target `1.5`, the descent loop of
`find_prefixsum_idx` never returns, for any number of iterations — in
particular it never produces the index `1` the claim requires.  The line
`idx.at[cont].set(2 * idx[cont])` computes a functional update whose result
the source discards, so the loop state never changes. -/
theorem C4_descent_never_returns :
    ∀ fuel : ℕ, find_loop demoP fuel (find_start (3 / 2)) = none := by
  have h11 : jget ([0, 11, 11, 0, 3, 8, 0, 0, 1, 2, 3, 5, 0, 0, 0, 0] : List ℚ) 0 1 = 11 := rfl
  have hfix : find_step demoP (find_start (3 / 2)) = find_start (3 / 2) := by
    simp only [find_step, find_start, demoP, List.zip_cons_cons, List.zip_nil_right,
      List.map_cons, List.map_nil]
    norm_num [h11]
  have hcont : (find_start (3 / 2)).cont.any id = true := rfl
  intro fuel
  induction fuel with
  | zero => rfl
  | succ n ih => rw [find_loop, if_pos hcont, hfix]; exact ih

/-- Claim C5, evaluated at the failing input: on the consistent capacity-8
tree with total sum `11` and the in-range target `1.5`, one iteration of the
descent loop maps the state to itself while the loop condition `any(cont)`
stays true — the `while` loop of `_find_prefixsum_idx_helper` does not
terminate.  (The ancestor-propagation loop of the setters does terminate:
`setitemLoop` above is defined by well-founded recursion on
`idxs.sum + idxs.length`.) -/
theorem C5_descent_loop_stuck :
    find_step demoP (find_start (3 / 2)) = find_start (3 / 2) ∧
    (find_start (3 / 2)).cont.any id = true := by
  have h11 : jget ([0, 11, 11, 0, 3, 8, 0, 0, 1, 2, 3, 5, 0, 0, 0, 0] : List ℚ) 0 1 = 11 := rfl
  refine ⟨?_, rfl⟩
  simp only [find_step, find_start, demoP, List.zip_cons_cons, List.zip_nil_right,
    List.map_cons, List.map_nil]
  norm_num [h11]

/-- Claim C6: on every tree, `setBatch` with pairwise-distinct in-range
indices, in any order, produces exactly the same final storage as the
corresponding sequence of single `set` calls.  (Both leave the storage
unchanged, because every functional array update in the setters is
discarded — see C1.) -/
theorem C6_batch_matches_sequential (t : SegTree α) (idxs : List ℕ) (vals : List α)
    (hdist : idxs.Pairwise (· ≠ ·)) (hin : ∀ i ∈ idxs, i < t.capacity)
    (hlen : idxs.length = vals.length) :
    (setBatch t idxs vals).value =
      ((idxs.zip vals).foldl (fun acc p => setitem acc p.1 p.2) t).value := by
  rw [setBatch_eq_self, foldl_setitem_eq_self]

/-- Witness for C6: unsorted distinct indices `[2, 0, 1]` on the consistent
capacity-8 tree. -/
theorem C6_witness :
    ([2, 0, 1] : List ℕ).Pairwise (· ≠ ·) ∧
    (∀ i ∈ ([2, 0, 1] : List ℕ), i < demoP.capacity) ∧
    (setBatch demoP [2, 0, 1] [7, 8, 9]).value =
      ((([2, 0, 1] : List ℕ).zip ([7, 8, 9] : List ℚ)).foldl
        (fun acc p => setitem acc p.1 p.2) demoP).value :=
  ⟨by decide, by decide,
    C6_batch_matches_sequential demoP [2, 0, 1] [7, 8, 9] (by decide) (by decide) (by decide)⟩

/-- Claim C7 counterexample: `set` at the out-of-range index `8` (= capacity)
of the capacity-8 tree does not fail — it returns successfully (and leaves the
tree unchanged) — contradicting the claim that `set` with an index outside
`[0, capacity)` fails with `IndexOutOfRange`.  (`__setitem__` performs no
bounds assertion.) -/
theorem C7_set_out_of_range_succeeds : setE demo8 8 5 = .ok demo8 := by
  unfold setE
  rw [setitem_eq_self]

/-- Claim C7 as amended: `get` with an index outside `[0, capacity)` fails
with `IndexOutOfRange` and no mutation occurs, but `set` performs no bounds
check: with an out-of-range index (≥ capacity) it does not fail, and the
storage is exactly what it was before the call. -/
theorem C7_get_checks_set_does_not (t : SegTree α) (i : ℤ) (j : ℕ) (v : α)
    (hi : i < 0 ∨ (t.capacity : ℤ) ≤ i) (hj : t.capacity ≤ j) :
    getE t i = .error .indexOutOfRange ∧ setE t j v = .ok t := by
  constructor
  · unfold getE
    rcases hi with hi | hi
    · rw [if_neg (by omega), if_pos (by omega)]
    · rw [if_pos (by omega)]
  · unfold setE
    rw [setitem_eq_self]

/-- Witness for C7's amended statement: `get(-1)` and `set(8, 5)` on the
capacity-8 tree. -/
theorem C7_amended_witness :
    ((-1 : ℤ) < 0 ∨ (demo8.capacity : ℤ) ≤ -1) ∧ demo8.capacity ≤ 8 ∧
    (getE demo8 (-1) = .error .indexOutOfRange ∧ setE demo8 8 (5 : ℚ) = .ok demo8) :=
  ⟨Or.inl (by decide), by decide,
    C7_get_checks_set_does_not demo8 (-1) 8 5 (Or.inl (by decide)) (by decide)⟩

/-- Claim C8, evaluated at the failing input: on the all-zero capacity-8 sum
tree (total sum `0`), the in-range target `0` nevertheless fails — the
assertion `isinstance(prefixsum[0], float)` is false for a jax array
element — while the out-of-range target `sum + 1.0 = 1` fails with the range
assertion, as the claim requires.  So `find_prefixsum_idx` does not fail
*exactly* when the target is out of range: it fails for every target. -/
theorem C8_every_target_fails :
    find_prefixsum_checks demo8 0 = .error .elementTypeAssertion ∧
    find_prefixsum_checks demo8 1 = .error .prefixSumOutOfRange := by
  have hsum : SumSegmentTree.sum demo8 0 none = some 0 := rfl
  unfold find_prefixsum_checks
  rw [hsum]
  constructor
  · rw [if_neg (by norm_num), if_neg (by norm_num),
      if_pos (by simp [prefixsum_element_is_float])]
  · rw [if_neg (by norm_num), if_pos (by norm_num [demo8])]

/-- Claim C10: a negative `end` argument in `[-capacity, 0)` has `capacity`
added to it by `reduce`, so `reduce(start, end)` behaves exactly as
`reduce(start, end + capacity)`. -/
theorem C10_negative_end_wraps (t : SegTree α) (start : ℤ) (e : ℤ)
    (hlo : -(t.capacity : ℤ) ≤ e) (hhi : e < 0) :
    reduce t start (some e) = reduce t start (some (e + t.capacity)) := by
  show reduce_helper t (t.capacity + 1) start
      ((if e < 0 then e + t.capacity else e) - 1) 1 0 ((t.capacity : ℤ) - 1) =
    reduce_helper t (t.capacity + 1) start
      ((if e + t.capacity < 0 then e + t.capacity + t.capacity else e + t.capacity) - 1)
      1 0 ((t.capacity : ℤ) - 1)
  rw [if_pos hhi, if_neg (by omega)]

/-- Witness for C10: `reduce(3, -1)` equals `reduce(3, 7)` on the capacity-8
tree. -/
theorem C10_witness :
    (-(demoP.capacity : ℤ) ≤ -1) ∧ ((-1 : ℤ) < 0) ∧
    reduce demoP 3 (some (-1)) = reduce demoP 3 (some (-1 + demoP.capacity)) :=
  ⟨by decide, by decide, C10_negative_end_wraps demoP 3 (-1) (by decide) (by decide)⟩

/-- Claim C9: construction with a capacity that is not positive or not a
power of two fails with `InvalidCapacity` and produces no tree; construction
with a valid capacity (and an operation with neutral element) fills all
`2 * capacity` storage slots with the neutral element, so every leaf reads as
the neutral element and the tree-consistency invariant holds immediately. -/
theorem C9_construction (operation : α → α → α) (neutral : α)
    (hneutral : operation neutral neutral = neutral) (c : ℕ) :
    ((c = 0 ∨ ¬ ∃ k, c = 2 ^ k) →
      SegTree.init c operation neutral = .error .invalidCapacity) ∧
    ((∃ k, c = 2 ^ k) → ∃ t, SegTree.init c operation neutral = .ok t ∧
      t.value = List.replicate (2 * c) neutral ∧
      (∀ i : ℤ, 0 ≤ i → i < (c : ℤ) → t.leaf i = neutral) ∧
      consistent t) := by
  constructor
  · intro hbad
    unfold SegTree.init
    rw [if_neg]
    rintro ⟨hpos, hland⟩
    rcases hbad with rfl | hbad
    · exact absurd hpos (by omega)
    · exact hbad (eq_pow2_of_land_pred c hpos hland)
  · rintro ⟨k, rfl⟩
    refine ⟨⟨2 ^ k, List.replicate (2 * 2 ^ k) neutral, operation, neutral⟩, ?_, rfl, ?_, ?_⟩
    · unfold SegTree.init
      rw [if_pos ⟨Nat.pos_pow_of_pos k (by norm_num), pow2_land_pred k⟩]
    · intro i h0 hc
      unfold SegTree.leaf
      exact jget_replicate _ _ _ (by positivity) _
    · intro j hj hj1
      dsimp only
      rw [jget_replicate _ _ _ (by positivity), jget_replicate _ _ _ (by positivity),
        jget_replicate _ _ _ (by positivity)]
      exact hneutral.symm

/-- Witness for C9: capacity 3 is rejected; capacity 4 yields the all-zero sum
tree. -/
theorem C9_witness :
    SegTree.init 3 (fun a b => a + b) (0 : ℚ) = .error .invalidCapacity ∧
    (∃ t, SegTree.init 4 (fun a b => a + b) (0 : ℚ) = .ok t ∧
      t.value = List.replicate 8 0 ∧
      (∀ i : ℤ, 0 ≤ i → i < (4 : ℤ) → t.leaf i = 0) ∧
      consistent t) :=
  ⟨(C9_construction (fun a b => a + b) (0 : ℚ) (by norm_num) 3).1
      (Or.inr (by
        rintro ⟨k, hk⟩
        rcases Nat.lt_or_ge k 2 with h | h
        · interval_cases k <;> simp_all
        · have : 2 ^ 2 ≤ 2 ^ k := Nat.pow_le_pow_right (by norm_num) h
          omega)),
    (C9_construction (fun a b => a + b) (0 : ℚ) (by norm_num) 4).2 ⟨2, by norm_num⟩⟩

/-- The scenario tree `demoP` (leaves `[1, 2, 3, 5, 0, 0, 0, 0]`) satisfies
the tree-consistency invariant. -/
theorem consistent_demoP : consistent demoP := by
  intro k hk hk1
  have hk8 : k < 8 := hk
  interval_cases k
  · show (11 : ℚ) = 11 + 0
    norm_num
  · show (11 : ℚ) = 3 + 8
    norm_num
  · show (0 : ℚ) = 0 + 0
    norm_num
  · show (3 : ℚ) = 1 + 2
    norm_num
  · show (8 : ℚ) = 3 + 5
    norm_num
  · show (0 : ℚ) = 0 + 0
    norm_num
  · show (0 : ℚ) = 0 + 0
    norm_num

/-- The min tree `demoM` (leaves `[1, 2]`) satisfies the tree-consistency
invariant. -/
theorem consistent_demoM : consistent demoM := by
  intro k hk hk1
  have hk2 : k < 2 := hk
  interval_cases k
  show ((1 : ℚ) : WithTop ℚ) = min ((1 : ℚ) : WithTop ℚ) ((2 : ℚ) : WithTop ℚ)
  rw [min_eq_left]
  exact_mod_cast (by norm_num : (1 : ℚ) ≤ 2)

/-- Claim C3: on every tree whose storage satisfies the tree-consistency
invariant (whatever updates produced it) and every range `0 ≤ start < stop ≤
capacity`, `reduce(start, stop)` returns the operation folded left-to-right
over the leaf values in `[start, stop)`; in particular `SumSegmentTree.sum`
returns the arithmetic sum of those leaves, and `MinSegmentTree.min` returns
a value that is a lower bound of those leaves and is attained by one of
them — their minimum. -/
theorem C3_reduce_is_range_fold :
    (∀ (α : Type) (t : SegTree α) (d : ℕ),
      t.capacity = 2 ^ d →
      (∀ a b c, t.op (t.op a b) c = t.op a (t.op b c)) →
      consistent t →
      ∀ start stop : ℤ, 0 ≤ start → start < stop → stop ≤ (t.capacity : ℤ) →
        reduce t start (some stop) = foldOp t.op (leafSeg t start (stop - 1))) ∧
    (∀ (t : SegTree ℚ) (d : ℕ),
      t.capacity = 2 ^ d → t.op = (fun a b => a + b) →
      consistent t →
      ∀ start stop : ℤ, 0 ≤ start → start < stop → stop ≤ (t.capacity : ℤ) →
        SumSegmentTree.sum t start (some stop) = some ((leafSeg t start (stop - 1)).sum)) ∧
    (∀ (t : SegTree (WithTop ℚ)) (d : ℕ),
      t.capacity = 2 ^ d → t.op = (fun a b => min a b) →
      consistent t →
      ∀ start stop : ℤ, 0 ≤ start → start < stop → stop ≤ (t.capacity : ℤ) →
        ∃ m, MinSegmentTree.minRange t start (some stop) = some m ∧
          (∀ i : ℤ, start ≤ i → i ≤ stop - 1 → m ≤ t.leaf i) ∧
          (∃ i : ℤ, start ≤ i ∧ i ≤ stop - 1 ∧ m = t.leaf i)) := by
  refine ⟨?_, ?_, ?_⟩
  · intro α t d hcap hassoc hcons start stop h0 hlt hle
    exact reduce_eq_foldOp t d hcap hassoc hcons start stop h0 hlt hle
  · intro t d hcap hop hcons start stop h0 hlt hle
    have hassoc : ∀ a b c, t.op (t.op a b) c = t.op a (t.op b c) := by
      rw [hop]
      exact fun a b c => add_assoc a b c
    have hred := reduce_eq_foldOp t d hcap hassoc hcons start stop h0 hlt hle
    unfold SumSegmentTree.sum
    rw [hred, hop]
    exact foldOp_add _ (leafSeg_ne_nil t start (stop - 1) (by omega))
  · intro t d hcap hop hcons start stop h0 hlt hle
    have hassoc : ∀ a b c, t.op (t.op a b) c = t.op a (t.op b c) := by
      rw [hop]
      exact fun a b c => min_assoc a b c
    have hred := reduce_eq_foldOp t d hcap hassoc hcons start stop h0 hlt hle
    obtain ⟨x, r, hxr⟩ : ∃ x r, leafSeg t start (stop - 1) = x :: r := by
      rcases hl : leafSeg t start (stop - 1) with _ | ⟨x, r⟩
      · exact absurd hl (leafSeg_ne_nil t start (stop - 1) (by omega))
      · exact ⟨x, r, rfl⟩
    refine ⟨r.foldl (fun a b => min a b) x, ?_, ?_, ?_⟩
    · unfold MinSegmentTree.minRange
      rw [hred, hxr, hop]
      rfl
    · intro i hi1 hi2
      have hmem : t.leaf i ∈ leafSeg t start (stop - 1) :=
        (mem_leafSeg_iff t start (stop - 1) _).mpr ⟨i, hi1, hi2, rfl⟩
      rw [hxr] at hmem
      rcases List.mem_cons.mp hmem with heq | hmem'
      · rw [heq]
        exact (foldl_min_le r x).1
      · exact (foldl_min_le r x).2 _ hmem'
    · rcases foldl_min_mem r x with h | h
      · have hx : x ∈ leafSeg t start (stop - 1) := by
          rw [hxr]
          exact List.mem_cons_self x r
        obtain ⟨i, hi1, hi2, hieq⟩ := (mem_leafSeg_iff _ _ _ _).mp hx
        exact ⟨i, hi1, hi2, by rw [h, hieq]⟩
      · have hx : r.foldl (fun a b => min a b) x ∈ leafSeg t start (stop - 1) := by
          rw [hxr]
          exact List.mem_cons_of_mem x h
        obtain ⟨i, hi1, hi2, hieq⟩ := (mem_leafSeg_iff _ _ _ _).mp hx
        exact ⟨i, hi1, hi2, hieq⟩

/-- Witness for C3: the consistent capacity-8 sum tree with leaves
`[1, 2, 3, 5, 0, 0, 0, 0]` on the range `[1, 4)`, and the consistent
capacity-2 min tree with leaves `[1, 2]` on the range `[0, 2)`. -/
theorem C3_witness :
    consistent demoP ∧ consistent demoM ∧
    reduce demoP 1 (some 4) = foldOp demoP.op (leafSeg demoP 1 (4 - 1)) ∧
    SumSegmentTree.sum demoP 1 (some 4) = some ((leafSeg demoP 1 (4 - 1)).sum) ∧
    (∃ m, MinSegmentTree.minRange demoM 0 (some 2) = some m ∧
      (∀ i : ℤ, 0 ≤ i → i ≤ 2 - 1 → m ≤ demoM.leaf i) ∧
      (∃ i : ℤ, 0 ≤ i ∧ i ≤ 2 - 1 ∧ m = demoM.leaf i)) :=
  ⟨consistent_demoP, consistent_demoM,
   C3_reduce_is_range_fold.1 ℚ demoP 3 rfl (fun a b c => add_assoc a b c)
     consistent_demoP 1 4 (by norm_num) (by norm_num) (by norm_num [demoP]),
   C3_reduce_is_range_fold.2.1 demoP 3 rfl rfl consistent_demoP 1 4
     (by norm_num) (by norm_num) (by norm_num [demoP]),
   C3_reduce_is_range_fold.2.2 demoM 1 rfl rfl consistent_demoM 0 2
     (by norm_num) (by norm_num) (by norm_num [demoM])⟩

end SegTreeModel
